import Mathlib

/-!
Verification of the query-classification and agent-dispatch core of the
FinanceAgents repository.

The embedding below translates the pure routing core into Lean:
  - the word-boundary regex operations used by the classifier
    (Python re.search and re.sub of an escaped literal pattern framed by \b),
  - shared_lib/query_classification.py: extract_companies, map_to_tickers,
    is_financial_query, determine_agents (including the except-fallback,
    modelled by an Except-valued classification outcome),
  - the CrewAI RouterCrew.determine_agents fallback variant,
  - the result-aggregation loop of RouterAgent.route / RouterCrew.route
    (the per-agent match on gathered results, key derivation, status and
    the response-data fallback), with agent payloads left opaque.

Strings are modelled as lists of characters; Python str.lower, str.strip,
str.endswith, str.replace and the `in` substring test are modelled
character-by-character.  The company→ticker lexicon is an association list
(the items of a Python dict, in insertion order); the financial-keyword
list is a list of strings.  The concrete COMPANY_TICKER_MAP and
FINANCIAL_KEYWORDS below are the inline tables of
llamaindex_agents/router.py (the shared config file is data, identical in
content for the worked examples).
-/

namespace FinanceAgents

/-- Python strings, modelled as lists of characters. -/
abbrev Str := List Char

/-- Python str.lower (ASCII case folding, matching the repository's data). -/
def lowerStr (s : Str) : Str := s.map Char.toLower

/-- Whitespace characters stripped by Python str.strip. -/
def isPySpace (c : Char) : Bool :=
  c == ' ' || c == '\t' || c == '\n' || c == '\r' || c == '\x0b' || c == '\x0c'

/-- Python str.strip: drop whitespace from both ends. -/
def stripStr (s : Str) : Str :=
  ((s.dropWhile isPySpace).reverse.dropWhile isPySpace).reverse

/-- Python regex word character \w (ASCII): letters, digits, underscore. -/
def isWordChar (c : Char) : Bool := c.isAlphanum || c == '_'

/-- Whether position i of s holds a word character (out of range: no). -/
def wordAt (s : Str) (i : Nat) : Bool :=
  match s[i]? with
  | some c => isWordChar c
  | none => false

/-- Python regex \b at position p of s: exactly one neighbour is a word
character (positions before 0 and past the end count as non-word). -/
def boundaryAt (s : Str) (p : Nat) : Bool :=
  (if p == 0 then false else wordAt s (p - 1)) != wordAt s p

/-- The literal lit occurs in s starting at position p. -/
def litAt (lit s : Str) (p : Nat) : Bool :=
  decide ((s.drop p).take lit.length = lit)

/-- Python re.search match of the pattern \b(escaped lit)\b at position p. -/
def wbMatchAt (lit s : Str) (p : Nat) : Bool :=
  boundaryAt s p && litAt lit s p && boundaryAt s (p + lit.length)

/-- Python bool(re.search(rf'\b(re.escape lit)\b', s)): some position of s
matches.  re.escape makes the pattern a literal, so no regex error can
occur and the except-re.error fallbacks in the source are unreachable. -/
def wbSearch (lit s : Str) : Bool :=
  (List.range (s.length + 1)).any (fun p => wbMatchAt lit s p)

/-- Scanning helper for re.sub: from position p, copy characters of s,
skipping each leftmost non-overlapping \b lit \b match (boundary tests are
against the original string, as in the regex engine).  Fuel bounds the
recursion; s.length + 1 is always enough because p strictly increases. -/
def wbSubFrom (lit s : Str) : Nat → Nat → Str
  | _, 0 => []
  | p, Nat.succ fuel =>
    match s[p]? with
    | none => []
    | some c =>
      if wbMatchAt lit s p then wbSubFrom lit s (p + lit.length) fuel
      else c :: wbSubFrom lit s (p + 1) fuel

/-- Python re.sub(rf'\b(re.escape lit)\b', '', s): delete every leftmost
non-overlapping word-boundary occurrence of lit.  An empty literal matches
only empty text, so substitution by the empty string leaves s unchanged. -/
def wbSub (lit s : Str) : Str :=
  if lit = [] then s else wbSubFrom lit s 0 (s.length + 1)

/-- Python substring test (pat in s). -/
def containsSub (pat s : Str) : Bool :=
  (List.range (s.length + 1)).any (fun p => litAt pat s p)

/-- Plain-literal scanning helper for str.replace(pat, ''). -/
def removeLitFrom (pat s : Str) : Nat → Nat → Str
  | _, 0 => []
  | p, Nat.succ fuel =>
    match s[p]? with
    | none => []
    | some c =>
      if litAt pat s p then removeLitFrom pat s (p + pat.length) fuel
      else c :: removeLitFrom pat s (p + 1) fuel

/-- Python s.replace(pat, ''): delete every leftmost non-overlapping
occurrence of pat. -/
def pyRemoveAll (pat s : Str) : Str :=
  if pat = [] then s else removeLitFrom pat s 0 (s.length + 1)

/-- Python s.endswith(suffix). -/
def endsWithStr (suffix s : Str) : Bool :=
  decide (suffix.length ≤ s.length) && decide (s.drop (s.length - suffix.length) = suffix)

/-! Lexicon data: the inline company→ticker table and financial-keyword
list of llamaindex_agents/router.py (LlamaIndexRouter.company_ticker_map
and FINANCIAL_KEYWORDS). -/

/-- Company→ticker lexicon, in source order. -/
def COMPANY_TICKER_MAP : List (Str × Str) :=
  [("apple".data, "AAPL".data),
   ("microsoft".data, "MSFT".data),
   ("google".data, "GOOGL".data),
   ("alphabet".data, "GOOGL".data),
   ("amazon".data, "AMZN".data),
   ("meta".data, "META".data),
   ("facebook".data, "META".data),
   ("tesla".data, "TSLA".data),
   ("nvidia".data, "NVDA".data),
   ("netflix".data, "NFLX".data),
   ("intel".data, "INTC".data),
   ("ibm".data, "IBM".data)]

/-- Financial keyword list, in source order. -/
def FINANCIAL_KEYWORDS : List Str :=
  ["stock".data, "stocks".data, "share".data, "shares".data, "price".data, "prices".data,
   "earnings".data, "revenue".data, "profit".data, "loss".data, "income".data,
   "invest".data, "investment".data, "investor".data, "investing".data,
   "dividend".data, "dividends".data, "yield".data,
   "market".data, "markets".data, "trading".data, "trade".data, "trader".data,
   "buy".data, "sell".data, "hold".data, "bullish".data, "bearish".data, "bull".data, "bear".data,
   "portfolio".data, "asset".data, "assets".data, "liability".data, "liabilities".data,
   "sec".data, "filing".data, "filings".data, "10-k".data, "10-q".data, "10k".data, "10q".data,
   "quarterly".data, "annual".data, "fiscal".data, "financial".data, "finance".data,
   "balance sheet".data, "income statement".data, "cash flow".data,
   "p/e".data, "ratio".data, "eps".data, "ebitda".data, "roi".data, "roe".data,
   "analyst".data, "forecast".data, "valuation".data, "capitalization".data,
   "ipo".data, "merger".data, "acquisition".data, "bond".data, "bonds".data,
   "equity".data, "debt".data, "loan".data, "bank".data, "banking".data,
   "nasdaq".data, "nyse".data, "s&p".data, "dow".data, "etf".data, "fund".data,
   "hedge".data, "mutual".data, "index".data,
   "volatility".data, "volume".data, "momentum".data,
   "ticker".data, "symbol".data, "chart".data,
   "report".data, "quarter".data, "guidance".data, "outlook".data,
   "sentiment".data, "wall street".data]

/-! The extractor (shared_lib/query_classification.py, extract_companies). -/

/-- Add to a Python set modelled as a duplicate-free list. -/
def addIfNew (acc : List Str) (x : Str) : List Str :=
  if x ∈ acc then acc else acc ++ [x]

/-- ticker_to_company built with dict.setdefault: the first company bearing
each lowercased ticker wins. -/
def tickerToCompany (ctm : List (Str × Str)) : List (Str × Str) :=
  ctm.foldl (fun acc p =>
    if acc.any (fun q => decide (q.1 = lowerStr p.2)) then acc
    else acc ++ [(lowerStr p.2, p.1)]) []

/-- Index of the last dot of a filename, if any. -/
def lastDotIdx (s : Str) : Option Nat :=
  match s.reverse.findIdx? (fun c => c == '.') with
  | none => none
  | some i => some (s.length - 1 - i)

/-- Python os.path.splitext(fname)[0] for a bare filename: cut at the last
dot, unless every character before it is itself a dot (leading dots are
not an extension separator). -/
def splitextBase (fname : Str) : Str :=
  match lastDotIdx fname with
  | none => fname
  | some d => if (fname.take d).any (fun c => !(c == '.')) then fname.take d else fname

/-- Candidate company derived from a corpus filename: the base name up to
the first dash (the whole base name when no dash occurs), lowercased. -/
def fileCompany (fname : Str) : Str :=
  lowerStr ((splitextBase fname).takeWhile (fun c => !(c == '-')))

/-- fname.lower().endswith((".pdf", ".htm", ".html")), applied to the
already-lowered name. -/
def hasDocExt (lowname : Str) : Bool :=
  endsWithStr ".pdf".data lowname || endsWithStr ".htm".data lowname ||
    endsWithStr ".html".data lowname

/-- shared_lib extract_companies.  The corpus directory is modelled as an
optional list of filenames: none models a missing or unreadable raw_data
directory (os.path.exists false, or listdir failing with the error
swallowed by the except-block), which contributes no matches. -/
def extract_companies (query : Str) (ctm : List (Str × Str))
    (rawFiles : Option (List Str)) : List Str :=
  if query = [] then []
  else
    let ql := lowerStr query
    let s1 := ctm.foldl (fun acc p => if wbSearch p.1 ql then addIfNew acc p.1 else acc) []
    let s2 := (tickerToCompany ctm).foldl
      (fun acc p => if wbSearch p.1 ql then addIfNew acc p.2 else acc) s1
    match rawFiles with
    | none => s2
    | some files =>
      files.foldl (fun acc fname =>
        if hasDocExt (lowerStr fname) then
          if wbSearch (fileCompany fname) ql then addIfNew acc (fileCompany fname) else acc
        else acc) s2

/-! The ticker mapper (shared_lib/query_classification.py, map_to_tickers). -/

/-- First binding of a key in an association list. -/
def dlookup {β : Type} : List (Str × β) → Str → Option β
  | [], _ => none
  | p :: rest, k => if p.1 = k then some p.2 else dlookup rest k

/-- Python dict.get on the items list: the last binding of a key wins
(a real dict has unique keys, making this the unique binding). -/
def dget (m : List (Str × Str)) (k : Str) : Option Str :=
  dlookup m.reverse k

/-- Python list(set(l)): deduplicate. -/
def dedupList (l : List Str) : List Str := l.foldl addIfNew []

/-- shared_lib map_to_tickers.  The `if ticker:` truthiness test skips both
missing entries and empty-string tickers. -/
def map_to_tickers (companies : List Str) (ctm : List (Str × Str)) : List Str :=
  if companies = [] then []
  else
    dedupList (companies.foldl (fun acc name =>
      match dget ctm (lowerStr name) with
      | some t => if t ≠ [] then acc ++ [t] else acc
      | none => acc) [])

/-! The classifier (shared_lib/query_classification.py, is_financial_query). -/

/-- One removal step of the classifier: delete the word-boundary
occurrences of an entity from the remaining text and strip. -/
def removeEntity (remaining entity : Str) : Str := stripStr (wbSub entity remaining)

/-- The remaining text after deleting every matched company name and every
lowercased ticker (in order) from the lowered, stripped query. -/
def remainingOf (query : Str) (companies tickers : List Str) : Str :=
  tickers.foldl (fun r t => removeEntity r (lowerStr t))
    (companies.foldl removeEntity (stripStr (lowerStr query)))

/-- shared_lib is_financial_query: the two-step classification. -/
def is_financial_query (query : Str) (companies tickers kw : List Str) : Bool :=
  let query_lower := stripStr (lowerStr query)
  if companies ≠ [] ∨ tickers ≠ [] then
    let remaining := remainingOf query companies tickers
    if (stripStr remaining).length ≤ 2 then true
    else kw.any (fun k => containsSub k remaining)
  else kw.any (fun k => containsSub k query_lower)

/-- Modelled from the spec: the two-step policy in the words of the claim,
with Step A scanning the remainder for each keyword case-insensitively
(the keyword is lowercased before the substring test).  This is the
specification-side reading to be compared with is_financial_query. -/
def financialPolicySpec (query : Str) (companies tickers kw : List Str) : Bool :=
  let query_lower := stripStr (lowerStr query)
  if companies ≠ [] ∨ tickers ≠ [] then
    let remaining := remainingOf query companies tickers
    if (stripStr remaining).length ≤ 2 then true
    else kw.any (fun k => containsSub (lowerStr k) remaining)
  else kw.any (fun k => containsSub k query_lower)

/-! The agent selector (shared_lib determine_agents and the CrewAI
RouterCrew.determine_agents variant). -/

/-- Agent identifier strings, as returned by the selectors. -/
def financeAgentName : Str := "FinanceAgent".data

/-- YahooAgent identifier. -/
def yahooAgentName : Str := "YahooAgent".data

/-- SECAgent identifier. -/
def secAgentName : Str := "SECAgent".data

/-- RedditAgent identifier. -/
def redditAgentName : Str := "RedditAgent".data

/-- GeneralAgent identifier. -/
def generalAgentName : Str := "GeneralAgent".data

/-- The finance_first ordering policy string. -/
def financeFirstOrder : Str := "finance_first".data

/-- shared_lib determine_agents with the classification outcome made
explicit: Except.error models an exception escaping is_financial_query and
landing in the except-branch, which returns the fixed default plan instead
of propagating. -/
def determine_agentsCore (isFinance : Except Str Bool) (tickers : List Str)
    (agent_order : Str) : List Str :=
  match isFinance with
  | Except.ok true =>
    if tickers ≠ [] then
      if agent_order = financeFirstOrder then
        [financeAgentName, yahooAgentName, secAgentName, redditAgentName]
      else [redditAgentName, financeAgentName, yahooAgentName, secAgentName]
    else
      if agent_order = financeFirstOrder then [financeAgentName, redditAgentName]
      else [redditAgentName, financeAgentName]
  | Except.ok false => [generalAgentName]
  | Except.error _ =>
    if agent_order = financeFirstOrder then [financeAgentName, redditAgentName]
    else [redditAgentName, financeAgentName]

/-- shared_lib determine_agents on the pure (non-raising) classification. -/
def determine_agents (query : Str) (companies tickers : List Str)
    (agent_order : Str) (kw : List Str) : List Str :=
  determine_agentsCore (Except.ok (is_financial_query query companies tickers kw))
    tickers agent_order

/-- RouterCrew.determine_agents (CrewAI variant): no ordering policy, a
GeneralAgent always appended, and an except-fallback of just GeneralAgent. -/
def crewaiDetermineAgentsCore (isFinance : Except Str Bool) (tickers : List Str) : List Str :=
  match isFinance with
  | Except.ok isf =>
    if isf = false then [generalAgentName]
    else if tickers ≠ [] then
      [redditAgentName, financeAgentName, yahooAgentName, secAgentName, generalAgentName]
    else [redditAgentName, financeAgentName, generalAgentName]
  | Except.error _ => [generalAgentName]

/-! The dispatcher's result aggregation (RouterAgent.route and
RouterCrew.route): the loop over zip(agent_names, results) after
asyncio.gather(..., return_exceptions=True).  Successful agent payloads
are opaque to the router, so they are modelled by an abstract numeric
payload; what matters is the shape of each gathered result. -/

/-- One value stored in the response data map. -/
inductive RVal where
  /-- An error object, as stored for a raising or silent agent. -/
  | errObj (msg : Str)
  /-- The data field of a returned response envelope. -/
  | dataVal (payload : Nat)
  /-- A plain dict returned by the agent, merged as-is. -/
  | dictVal (payload : Nat)
  /-- Any other value, wrapped as a response object of its string form. -/
  | strVal (payload : Nat)
deriving DecidableEq, Repr

/-- One gathered result of run_agent, as seen by the aggregation loop. -/
inductive AgentResult where
  /-- An exception delivered by gather (isinstance(result, Exception)). -/
  | exn (msg : Str)
  /-- Python None: the agent returned no response. -/
  | noResponse
  /-- An object with a data attribute and optional context updates. -/
  | withData (payload : Nat) (ctxUpdates : List (Str × Nat))
  /-- A plain dict result. -/
  | dictRes (payload : Nat)
  /-- Any other (plain) value. -/
  | plainRes (payload : Nat)
deriving DecidableEq, Repr

/-- The response entry the loop records for one agent result. -/
def entryOf : AgentResult → RVal
  | .exn msg => .errObj msg
  | .noResponse => .errObj "Agent returned no response".data
  | .withData p _ => .dataVal p
  | .dictRes p => .dictVal p
  | .plainRes p => .strVal p

/-- Whether a gathered result makes the loop mark partial_failure. -/
def isFailure : AgentResult → Bool
  | .exn _ => true
  | .noResponse => true
  | _ => false

/-- Output key for an agent: agent_name.lower().replace("agent", ""). -/
def keyFor (name : Str) : Str := pyRemoveAll "agent".data (lowerStr name)

/-- Whether the dict holds the key. -/
def hasKeyD {β : Type} (d : List (Str × β)) (k : Str) : Bool := (dlookup d k).isSome

/-- Python dict assignment d[k] = v: overwrite in place, else append. -/
def dictInsert {β : Type} (d : List (Str × β)) (k : Str) (v : β) : List (Str × β) :=
  if hasKeyD d k then d.map (fun p => if p.1 = k then (k, v) else p) else d ++ [(k, v)]

/-- The pure part of the response envelope built by route: the data map,
the merged context updates, and the overall status string. -/
structure Envelope where
  /-- data: map from derived agent key to that agent's recorded value. -/
  data : List (Str × RVal)
  /-- context_updates merged across returned envelopes. -/
  contextUpdates : List (Str × Nat)
  /-- success or partial_failure (failed arises only outside this loop). -/
  status : Str
deriving DecidableEq, Repr

/-- context_updates.update(result.context_updates) for one result, guarded
by the truthiness test on the updates dict. -/
def ctxStep (acc : List (Str × Nat)) : AgentResult → List (Str × Nat)
  | .withData _ cu => if cu = [] then acc else cu.foldl (fun a kv => dictInsert a kv.1 kv.2) acc
  | _ => acc

/-- The aggregation loop of route: one pass over zip(agent_names, results)
recording each entry under its derived key, merging context updates, and
lowering the status to partial_failure when any result is an exception or
None; the final response data falls back to a single error object when no
agent produced an entry. -/
def routeAggregate (names : List Str) (results : List AgentResult) : Envelope :=
  let pairs := names.zip results
  let data := pairs.foldl (fun acc pr => dictInsert acc (keyFor pr.1) (entryOf pr.2)) []
  let cu := pairs.foldl (fun acc pr => ctxStep acc pr.2) []
  let status := if pairs.any (fun pr => isFailure pr.2) then "partial_failure".data
    else "success".data
  { data := if data = [] then [("error".data, RVal.errObj "No agents responded".data)] else data,
    contextUpdates := cu,
    status := status }

/-! Specification-side definitions, following the words of the claims. -/

/-- Modelled from the spec: membership in the extraction result as the
claim states it, for comparison with extract_companies.  A candidate c is
included when it is a lexicon company name whose name word-boundary-matches
the lowered query, or a lexicon company name whose lowercased ticker
word-boundary-matches the lowered query, or a corpus-filename-derived
lowercased company that word-boundary-matches the lowered query. -/
def claimExtractSpec (query : Str) (ctm : List (Str × Str))
    (rawFiles : Option (List Str)) (c : Str) : Bool :=
  let ql := lowerStr query
  ctm.any (fun p => decide (p.1 = c) && wbSearch p.1 ql) ||
  ctm.any (fun p => decide (p.1 = c) && wbSearch (lowerStr p.2) ql) ||
  (match rawFiles with
   | none => false
   | some files =>
     files.any (fun fname =>
       hasDocExt (lowerStr fname) && decide (fileCompany fname = c) &&
         wbSearch (fileCompany fname) ql))

/-- The amended extraction membership: ticker-based matches add, for each
distinct lowercased ticker, the canonical name of the first lexicon entry
bearing that ticker (the dict.setdefault winner), not every entry bearing
it. -/
def extractSpecAmended (query : Str) (ctm : List (Str × Str))
    (rawFiles : Option (List Str)) (c : Str) : Bool :=
  let ql := lowerStr query
  ctm.any (fun p => decide (p.1 = c) && wbSearch p.1 ql) ||
  (tickerToCompany ctm).any (fun p => decide (p.2 = c) && wbSearch p.1 ql) ||
  (match rawFiles with
   | none => false
   | some files =>
     files.any (fun fname =>
       hasDocExt (lowerStr fname) && decide (fileCompany fname = c) &&
         wbSearch (fileCompany fname) ql))

/-- Case-insensitive first binding in an association list. -/
def alookupCI : List (Str × Str) → Str → Option Str
  | [], _ => none
  | p :: rest, name => if lowerStr p.1 = lowerStr name then some p.2 else alookupCI rest name

/-- Modelled from the spec: a genuinely case-insensitive lexicon lookup of
a company name (last binding wins, as in a dict built from the items), the
claim-side reading of map_to_tickers lookups.  On a lexicon with lowercase
canonical keys it coincides with dget ctm (lowerStr name). -/
def lookupCI (ctm : List (Str × Str)) (name : Str) : Option Str :=
  alookupCI ctm.reverse name

/-! Helper lemmas. -/

/-- Membership after adding to a duplicate-free set. -/
theorem mem_addIfNew (acc : List Str) (x c : Str) :
    c ∈ addIfNew acc x ↔ c ∈ acc ∨ c = x := by
  unfold addIfNew
  by_cases h : x ∈ acc
  · rw [if_pos h]
    constructor
    · exact Or.inl
    · rintro (hc | rfl)
      · exact hc
      · exact h
  · rw [if_neg h]
    simp [List.mem_append]

/-- Membership through a fold whose step adds elements satisfying a
pointwise condition. -/
theorem foldl_mem_of_step {α : Type} (step : List Str → α → List Str) (P : α → Str → Prop)
    (hstep : ∀ acc y c, c ∈ step acc y ↔ c ∈ acc ∨ P y c) :
    ∀ (l : List α) (init : List Str) (c : Str),
      c ∈ l.foldl step init ↔ c ∈ init ∨ ∃ y, y ∈ l ∧ P y c := by
  intro l
  induction l with
  | nil => intro init c; simp
  | cons y rest ih =>
    intro init c
    rw [List.foldl_cons, ih, hstep]
    constructor
    · rintro ((h | h) | ⟨z, hz, hp⟩)
      · exact Or.inl h
      · exact Or.inr ⟨y, List.mem_cons_self y rest, h⟩
      · exact Or.inr ⟨z, List.mem_cons_of_mem y hz, hp⟩
    · rintro (h | ⟨z, hz, hp⟩)
      · exact Or.inl (Or.inl h)
      · rcases List.mem_cons.mp hz with rfl | hz2
        · exact Or.inl (Or.inr hp)
        · exact Or.inr ⟨z, hz2, hp⟩

/-- Out-of-range positions never hold word characters of the empty string. -/
theorem wordAt_nil (i : Nat) : wordAt [] i = false := by
  unfold wordAt
  rw [List.getElem?_nil]

/-- The empty string has no word boundaries. -/
theorem boundaryAt_nil (p : Nat) : boundaryAt [] p = false := by
  unfold boundaryAt
  rw [wordAt_nil, wordAt_nil, ite_self]
  rfl

/-- No word-boundary match exists inside the empty string. -/
theorem wbSearch_nil (lit : Str) : wbSearch lit [] = false := by
  simp [wbSearch, wbMatchAt, boundaryAt_nil]

/-- Scanning with pre-lowered keywords equals scanning with the raw
keywords when every keyword is already lowercase. -/
theorem any_containsSub_lower (kw : List Str)
    (hkw : kw.all (fun k => decide (lowerStr k = k)) = true) (r : Str) :
    kw.any (fun k => containsSub (lowerStr k) r) = kw.any (fun k => containsSub k r) := by
  induction kw with
  | nil => rfl
  | cons k rest ih =>
    rw [List.all_cons] at hkw
    simp only [Bool.and_eq_true, decide_eq_true_eq] at hkw
    rw [List.any_cons, List.any_cons, hkw.1, ih hkw.2]

/-- A key is absent from an association list iff lookup fails. -/
theorem dlookup_eq_none_iff {β : Type} :
    ∀ (d : List (Str × β)) (k : Str), dlookup d k = none ↔ k ∉ d.map Prod.fst := by
  intro d
  induction d with
  | nil =>
    intro k
    rw [List.map_nil]
    constructor
    · intro _ hm
      exact List.not_mem_nil k hm
    · intro _
      rfl
  | cons p rest ih =>
    intro k
    rw [dlookup, List.map_cons]
    by_cases h : p.1 = k
    · rw [if_pos h]
      constructor
      · intro hs
        exact Option.noConfusion hs
      · intro hm
        exact absurd (by rw [← h]; exact List.mem_cons_self p.1 (rest.map Prod.fst)) hm
    · rw [if_neg h, ih]
      constructor
      · intro hk hm
        rcases List.mem_cons.mp hm with he | hm2
        · exact h he.symm
        · exact hk hm2
      · intro hk hm
        exact hk (List.mem_cons_of_mem p.1 hm)

/-- Recovering an element from its index. -/
theorem mem_of_getElem_some {α : Type} :
    ∀ (l : List α) (i : Nat) (a : α), l[i]? = some a → a ∈ l := by
  intro l
  induction l with
  | nil =>
    intro i a h
    rw [List.getElem?_nil] at h
    exact Option.noConfusion h
  | cons x rest ih =>
    intro i a h
    cases i with
    | zero =>
      rw [List.getElem?_cons_zero] at h
      injection h with h
      rw [← h]
      exact List.mem_cons_self x rest
    | succ j =>
      rw [List.getElem?_cons_succ] at h
      exact List.mem_cons_of_mem x (ih j a h)

/-- A successful lookup returns a binding of the list. -/
theorem dlookup_some_mem {β : Type} :
    ∀ (d : List (Str × β)) (k : Str) (v : β), dlookup d k = some v → (k, v) ∈ d := by
  intro d
  induction d with
  | nil =>
    intro k v h
    exact Option.noConfusion h
  | cons p rest ih =>
    intro k v h
    rw [dlookup] at h
    by_cases hp : p.1 = k
    · rw [if_pos hp] at h
      injection h with h2
      have hpe : p = (k, v) := by
        cases p
        simp only [Prod.mk.injEq]
        exact ⟨hp, h2⟩
      rw [← hpe]
      exact List.mem_cons_self p rest
    · rw [if_neg hp] at h
      exact List.mem_cons_of_mem p (ih k v h)

/-- Inserting successive fresh keys appends them in order. -/
theorem foldl_dictInsert_append {β : Type} :
    ∀ (l acc : List (Str × β)),
      ((acc ++ l).map Prod.fst).Nodup →
      l.foldl (fun d kv => dictInsert d kv.1 kv.2) acc = acc ++ l := by
  intro l
  induction l with
  | nil =>
    intro acc _
    rw [List.foldl_nil, List.append_nil]
  | cons kv rest ih =>
    intro acc h
    obtain ⟨k, v⟩ := kv
    rw [List.foldl_cons]
    have hsplit := h
    rw [List.map_append, List.nodup_append] at hsplit
    have hkey : k ∉ acc.map Prod.fst := by
      intro hmem
      refine hsplit.2.2 hmem ?_
      rw [List.map_cons]
      exact List.mem_cons_self k (rest.map Prod.fst)
    have hins : dictInsert acc k v = acc ++ [(k, v)] := by
      unfold dictInsert hasKeyD
      rw [(dlookup_eq_none_iff acc k).mpr hkey]
      rw [if_neg (fun hc => Bool.noConfusion hc)]
    rw [hins]
    have h2 : (((acc ++ [(k, v)]) ++ rest).map Prod.fst).Nodup := by
      rw [List.append_assoc]
      exact h
    rw [ih (acc ++ [(k, v)]) h2, List.append_assoc]
    rfl

/-- In an association list with pairwise-distinct keys, looking up the
key of the i-th binding returns the i-th value. -/
theorem dlookup_of_nodup {β : Type} :
    ∀ (l : List (Str × β)), (l.map Prod.fst).Nodup →
      ∀ (i : Nat) (p : Str × β), l[i]? = some p → dlookup l p.1 = some p.2 := by
  intro l
  induction l with
  | nil =>
    intro _ i p h
    rw [List.getElem?_nil] at h
    exact Option.noConfusion h
  | cons q rest ih =>
    intro hnd i p hp
    have hnd2 := hnd
    rw [List.map_cons, List.nodup_cons] at hnd2
    cases i with
    | zero =>
      rw [List.getElem?_cons_zero] at hp
      injection hp with hp
      rw [← hp, dlookup, if_pos rfl]
    | succ j =>
      rw [List.getElem?_cons_succ] at hp
      have hmem : p ∈ rest := mem_of_getElem_some rest j p hp
      have hq : q.1 ≠ p.1 := by
        intro he
        exact hnd2.1 (he ▸ List.mem_map_of_mem Prod.fst hmem)
      rw [dlookup, if_neg hq]
      exact ih hnd2.2 j p hp

/-- Indexing a zip of equally long lists. -/
theorem zip_getElem_some {α β : Type} :
    ∀ (l1 : List α) (l2 : List β) (i : Nat) (a : α) (b : β),
      l1[i]? = some a → l2[i]? = some b → (l1.zip l2)[i]? = some (a, b) := by
  intro l1
  induction l1 with
  | nil =>
    intro l2 i a b h _
    rw [List.getElem?_nil] at h
    exact Option.noConfusion h
  | cons x rest ih =>
    intro l2 i a b h1 h2
    cases l2 with
    | nil =>
      rw [List.getElem?_nil] at h2
      exact Option.noConfusion h2
    | cons y rest2 =>
      cases i with
      | zero =>
        rw [List.getElem?_cons_zero] at h1 h2
        injection h1 with h1
        injection h2 with h2
        rw [List.zip_cons_cons, List.getElem?_cons_zero, h1, h2]
      | succ j =>
        rw [List.getElem?_cons_succ] at h1 h2
        rw [List.zip_cons_cons, List.getElem?_cons_succ]
        exact ih rest2 j a b h1 h2

/-- Adding to a duplicate-free set keeps it duplicate-free. -/
theorem addIfNew_nodup (acc : List Str) (x : Str) (h : acc.Nodup) : (addIfNew acc x).Nodup := by
  unfold addIfNew
  by_cases hx : x ∈ acc
  · rw [if_pos hx]; exact h
  · rw [if_neg hx]
    rw [List.nodup_append]
    refine ⟨h, List.nodup_singleton x, ?_⟩
    intro a ha hb
    rw [List.mem_singleton] at hb
    rw [hb] at ha
    exact hx ha

/-- Deduplication produces a duplicate-free list. -/
theorem dedupList_nodup (l : List Str) : (dedupList l).Nodup := by
  unfold dedupList
  have key : ∀ (l2 init : List Str), init.Nodup → (l2.foldl addIfNew init).Nodup := by
    intro l2
    induction l2 with
    | nil => intro init h; exact h
    | cons x rest ih =>
      intro init h
      rw [List.foldl_cons]
      exact ih (addIfNew init x) (addIfNew_nodup init x h)
  exact key l [] List.nodup_nil

/-- Deduplication preserves membership. -/
theorem mem_dedupList (l : List Str) (c : Str) : c ∈ dedupList l ↔ c ∈ l := by
  unfold dedupList
  rw [foldl_mem_of_step addIfNew (fun y c0 => y = c0)
    (fun acc y c0 => by rw [mem_addIfNew]; exact or_congr_right eq_comm)]
  simp

/-- Reduction of the selector on an error outcome. -/
theorem detCore_eq_error (e : Str) (ts : List Str) (ord : Str) :
    determine_agentsCore (Except.error e) ts ord =
      if ord = financeFirstOrder then [financeAgentName, redditAgentName]
      else [redditAgentName, financeAgentName] := rfl

/-- Reduction of the selector on a non-financial outcome. -/
theorem detCore_eq_false (ts : List Str) (ord : Str) :
    determine_agentsCore (Except.ok false) ts ord = [generalAgentName] := rfl

/-- Reduction of the selector on a financial outcome. -/
theorem detCore_eq_true (ts : List Str) (ord : Str) :
    determine_agentsCore (Except.ok true) ts ord =
      if ts ≠ [] then
        if ord = financeFirstOrder then
          [financeAgentName, yahooAgentName, secAgentName, redditAgentName]
        else [redditAgentName, financeAgentName, yahooAgentName, secAgentName]
      else
        if ord = financeFirstOrder then [financeAgentName, redditAgentName]
        else [redditAgentName, financeAgentName] := rfl

/-- The selector depends on the ticker list only through its emptiness. -/
theorem determine_agentsCore_congr (x : Except Str Bool) (ts1 ts2 : List Str) (ord : Str)
    (h : ts1 = [] ↔ ts2 = []) :
    determine_agentsCore x ts1 ord = determine_agentsCore x ts2 ord := by
  rcases x with e | b
  · rfl
  · cases b
    · rfl
    · rw [detCore_eq_true, detCore_eq_true]
      by_cases h1 : ts1 = []
      · rw [if_neg (not_not_intro h1), if_neg (not_not_intro (h.mp h1))]
      · rw [if_pos h1, if_pos (fun he => h1 (h.mpr he))]

/-- The two ordering policies produce permutations of the same plan. -/
theorem determine_agentsCore_order_perm (x : Except Str Bool) (ts : List Str) (ord1 ord2 : Str) :
    (determine_agentsCore x ts ord1).Perm (determine_agentsCore x ts ord2) := by
  rcases x with e | b
  · rw [detCore_eq_error, detCore_eq_error]
    split_ifs <;> decide
  · cases b
    · exact List.Perm.refl _
    · rw [detCore_eq_true, detCore_eq_true]
      split_ifs <;> decide

/-! Claim theorems. -/

/-- C1: is_financial_query implements the two-step policy.  With entities
present it deletes each matched company and lowercased ticker from the
lowered query by word-boundary substitution, answers true when the trimmed
remainder has length at most two, and otherwise answers true exactly when
some financial keyword occurs (case-insensitively) as a substring of the
remainder; with no entities it answers true exactly when some keyword
occurs as a substring of the lowered query.  The case-insensitive reading
coincides with the code under the hypothesis that every keyword is already
lowercase, which holds for the repository's keyword lists.  In particular
"apple pie" with company apple is non-financial and "apple" with company
apple and ticker AAPL is financial. -/
theorem is_financial_query_two_step :
    (∀ (q : Str) (cs ts kw : List Str),
        kw.all (fun k => decide (lowerStr k = k)) = true →
        is_financial_query q cs ts kw = financialPolicySpec q cs ts kw) ∧
    is_financial_query "apple pie".data ["apple".data] [] FINANCIAL_KEYWORDS = false ∧
    is_financial_query "apple".data ["apple".data] ["AAPL".data] FINANCIAL_KEYWORDS = true := by
  refine ⟨?_, by decide, by decide⟩
  intro q cs ts kw hkw
  simp only [is_financial_query, financialPolicySpec]
  split_ifs
  · rfl
  · exact (any_containsSub_lower kw hkw (remainingOf q cs ts)).symm
  · rfl

/-- Witness for C1 at a concrete input: the keyword list is lowercase and
the classifier agrees with the spec-side policy on the apple-pie query. -/
theorem is_financial_query_two_step_witness :
    FINANCIAL_KEYWORDS.all (fun k => decide (lowerStr k = k)) = true ∧
    is_financial_query "apple pie".data ["apple".data] [] FINANCIAL_KEYWORDS =
      financialPolicySpec "apple pie".data ["apple".data] [] FINANCIAL_KEYWORDS :=
  ⟨by decide,
   is_financial_query_two_step.1 "apple pie".data ["apple".data] [] FINANCIAL_KEYWORDS (by decide)⟩

/-- C2: determine_agents follows the decision table.  Non-financial
queries get exactly the GeneralAgent; financial queries with tickers get
exactly the four agents FinanceAgent, YahooAgent, SECAgent, RedditAgent;
financial queries without tickers get exactly FinanceAgent and
RedditAgent; and the ordering policy only permutes the plan, never
changing membership. -/
theorem determine_agents_decision_table :
    ∀ (q : Str) (cs ts kw : List Str) (ord : Str),
      (is_financial_query q cs ts kw = false →
        determine_agents q cs ts ord kw = [generalAgentName]) ∧
      (is_financial_query q cs ts kw = true → ts ≠ [] →
        (determine_agents q cs ts ord kw).Perm
          [financeAgentName, yahooAgentName, secAgentName, redditAgentName]) ∧
      (is_financial_query q cs ts kw = true → ts = [] →
        (determine_agents q cs ts ord kw).Perm [financeAgentName, redditAgentName]) ∧
      (∀ (ord2 : Str) (a : Str),
        a ∈ determine_agents q cs ts ord kw ↔ a ∈ determine_agents q cs ts ord2 kw) := by
  intro q cs ts kw ord
  refine ⟨?_, ?_, ?_, ?_⟩
  · intro h
    rw [determine_agents, h, detCore_eq_false]
  · intro h hts
    rw [determine_agents, h, detCore_eq_true, if_pos hts]
    split_ifs <;> decide
  · intro h hts
    rw [determine_agents, h, detCore_eq_true, if_neg (not_not_intro hts)]
    split_ifs <;> decide
  · intro ord2 a
    exact (determine_agentsCore_order_perm
      (Except.ok (is_financial_query q cs ts kw)) ts ord ord2).mem_iff

/-- Witness for C2 at the spec's worked example: the query apple with
ticker AAPL is financial and the reddit-first plan is a permutation of the
four-agent plan. -/
theorem determine_agents_decision_table_witness :
    is_financial_query "apple".data ["apple".data] ["AAPL".data] FINANCIAL_KEYWORDS = true ∧
    (["AAPL".data] : List Str) ≠ [] ∧
    (determine_agents "apple".data ["apple".data] ["AAPL".data] "reddit_first".data
        FINANCIAL_KEYWORDS).Perm
      [financeAgentName, yahooAgentName, secAgentName, redditAgentName] :=
  ⟨by decide, by decide,
   (determine_agents_decision_table "apple".data ["apple".data] ["AAPL".data] FINANCIAL_KEYWORDS
      "reddit_first".data).2.1 (by decide) (by decide)⟩

/-- C4: selection never propagates an internal classification error.  When
the classification outcome is an exception, shared_lib determine_agents
returns the fixed default plan of FinanceAgent and RedditAgent in policy
order, and the CrewAI variant returns the GeneralAgent fallback; being a
total function of the outcome, the selector never throws. -/
theorem determine_agents_error_fallback :
    ∀ (e : Str) (ts : List Str) (ord : Str),
      determine_agentsCore (Except.error e) ts ord =
        (if ord = financeFirstOrder then [financeAgentName, redditAgentName]
         else [redditAgentName, financeAgentName]) ∧
      crewaiDetermineAgentsCore (Except.error e) ts = [generalAgentName] :=
  fun e ts ord => ⟨rfl, rfl⟩

/-- C6: extract_companies is total on its edge cases.  The empty query
yields the empty result; a missing or unreadable corpus directory
contributes exactly no filename-based matches; and lexicon names holding
regex metacharacters are matched as escaped literals, evaluated here on a
dotted name without any error. -/
theorem extract_companies_edge_cases :
    (∀ (ctm : List (Str × Str)) (files : Option (List Str)),
        extract_companies [] ctm files = []) ∧
    (∀ (q : Str) (ctm : List (Str × Str)),
        extract_companies q ctm none = extract_companies q ctm (some [])) ∧
    extract_companies "price of a.b corp".data [("a.b".data, "XX".data)] none =
      ["a.b".data] :=
  ⟨fun _ _ => rfl, fun _ _ => rfl, by decide⟩

/-- C8: the pipeline is deterministic.  Each stage is a pure function of
its arguments and the explicit lexicon and corpus state, so repeated calls
agree; moreover determine_agents is a function of only the classification
outcome, the emptiness of the ticker list and the ordering policy. -/
theorem classification_selector_deterministic :
    (∀ (q : Str) (ctm : List (Str × Str)) (files : Option (List Str)),
        extract_companies q ctm files = extract_companies q ctm files) ∧
    (∀ (q : Str) (cs ts kw : List Str),
        is_financial_query q cs ts kw = is_financial_query q cs ts kw) ∧
    (∀ (cs : List Str) (ctm : List (Str × Str)),
        map_to_tickers cs ctm = map_to_tickers cs ctm) ∧
    (∀ (q1 q2 : Str) (cs1 cs2 ts1 ts2 kw1 kw2 : List Str) (ord : Str),
        is_financial_query q1 cs1 ts1 kw1 = is_financial_query q2 cs2 ts2 kw2 →
        (ts1 = [] ↔ ts2 = []) →
        determine_agents q1 cs1 ts1 ord kw1 = determine_agents q2 cs2 ts2 ord kw2) := by
  refine ⟨fun _ _ _ => rfl, fun _ _ _ _ => rfl, fun _ _ => rfl, ?_⟩
  intro q1 q2 cs1 cs2 ts1 ts2 kw1 kw2 ord hfin hts
  rw [determine_agents, determine_agents, hfin]
  exact determine_agentsCore_congr _ ts1 ts2 ord hts

/-- Witness for C8 on two different financial queries with empty ticker
lists: equal classification outcomes force equal agent plans. -/
theorem classification_selector_deterministic_witness :
    is_financial_query "buy stocks".data [] [] FINANCIAL_KEYWORDS =
      is_financial_query "which etf should I pick".data [] [] FINANCIAL_KEYWORDS ∧
    determine_agents "buy stocks".data [] [] "reddit_first".data FINANCIAL_KEYWORDS =
      determine_agents "which etf should I pick".data [] [] "reddit_first".data
        FINANCIAL_KEYWORDS :=
  ⟨by decide,
   classification_selector_deterministic.2.2.2 "buy stocks".data "which etf should I pick".data
     [] [] [] [] FINANCIAL_KEYWORDS FINANCIAL_KEYWORDS "reddit_first".data (by decide)
     (Iff.rfl)⟩

/-- C10: every plan the selector can produce, including the error
fallback, is non-empty, duplicate-free, and drawn from the closed agent
set of FinanceAgent, YahooAgent, SECAgent, RedditAgent, GeneralAgent. -/
theorem determine_agents_plan_invariants :
    ∀ (x : Except Str Bool) (ts : List Str) (ord : Str),
      determine_agentsCore x ts ord ≠ [] ∧
      (determine_agentsCore x ts ord).Nodup ∧
      ∀ a, a ∈ determine_agentsCore x ts ord →
        a ∈ [financeAgentName, yahooAgentName, secAgentName, redditAgentName,
             generalAgentName] := by
  intro x ts ord
  rcases x with e | b
  · rw [detCore_eq_error]
    split_ifs <;> exact ⟨by decide, by decide, by decide⟩
  · cases b
    · rw [detCore_eq_false]
      exact ⟨by decide, by decide, by decide⟩
    · rw [detCore_eq_true]
      split_ifs <;> exact ⟨by decide, by decide, by decide⟩

/-- Witness for C10: a member of the four-agent plan lies in the closed
agent set. -/
theorem determine_agents_plan_invariants_witness :
    financeAgentName ∈ determine_agentsCore (Except.ok true) ["AAPL".data] "reddit_first".data ∧
    financeAgentName ∈ [financeAgentName, yahooAgentName, secAgentName, redditAgentName,
      generalAgentName] :=
  ⟨by decide,
   (determine_agents_plan_invariants (Except.ok true) ["AAPL".data] "reddit_first".data).2.2
     financeAgentName (by decide)⟩

/-- Keys already lowercase make the dict lookup of a lowered name agree
with the genuinely case-insensitive lookup. -/
theorem dget_eq_lookupCI (ctm : List (Str × Str)) (c : Str)
    (hkeys : ∀ p, p ∈ ctm → lowerStr p.1 = p.1) :
    dget ctm (lowerStr c) = lookupCI ctm c := by
  unfold dget lookupCI
  have h2 : ∀ p, p ∈ ctm.reverse → lowerStr p.1 = p.1 :=
    fun p hp => hkeys p (List.mem_reverse.mp hp)
  generalize ctm.reverse = l at h2 ⊢
  induction l with
  | nil => rfl
  | cons p rest ih =>
    simp only [dlookup, alookupCI]
    have hp := h2 p (List.mem_cons_self p rest)
    by_cases hc : p.1 = lowerStr c
    · rw [if_pos hc, if_pos (by rw [hp]; exact hc)]
    · rw [if_neg hc, if_neg (by rw [hp]; exact hc)]
      exact ih (fun q hq => h2 q (List.mem_cons_of_mem p hq))

/-- Values found by dict.get inherit the lexicon's nonempty-ticker
invariant. -/
theorem dget_some_ne_nil (ctm : List (Str × Str)) (k v : Str)
    (hvals : ∀ p, p ∈ ctm → p.2 ≠ []) (h : dget ctm k = some v) : v ≠ [] := by
  unfold dget at h
  have hm := dlookup_some_mem ctm.reverse k v h
  exact hvals (k, v) (List.mem_reverse.mp hm)

/-- Membership characterization of the ticker mapper: a ticker is returned
exactly when some listed company name looks it up to a nonempty value. -/
theorem map_to_tickers_mem (cs : List Str) (ctm : List (Str × Str)) (t : Str) :
    t ∈ map_to_tickers cs ctm ↔
      ∃ c, c ∈ cs ∧ dget ctm (lowerStr c) = some t ∧ t ≠ [] := by
  unfold map_to_tickers
  by_cases hcs : cs = []
  · rw [if_pos hcs]
    subst hcs
    constructor
    · intro h
      exact absurd h (List.not_mem_nil t)
    · rintro ⟨c, hc, _⟩
      exact absurd hc (List.not_mem_nil c)
  · rw [if_neg hcs, mem_dedupList]
    have hstep : ∀ (acc : List Str) (name t0 : Str),
        t0 ∈ (match dget ctm (lowerStr name) with
              | some tv => if tv ≠ [] then acc ++ [tv] else acc
              | none => acc) ↔
          t0 ∈ acc ∨ (dget ctm (lowerStr name) = some t0 ∧ t0 ≠ []) := by
      intro acc name t0
      cases hd : dget ctm (lowerStr name) with
      | none =>
        constructor
        · exact Or.inl
        · rintro (h | ⟨he, _⟩)
          · exact h
          · exact Option.noConfusion he
      | some tv =>
        show (t0 ∈ if tv ≠ [] then acc ++ [tv] else acc) ↔
          t0 ∈ acc ∨ (some tv = some t0 ∧ t0 ≠ [])
        by_cases htv : tv ≠ []
        · rw [if_pos htv, List.mem_append, List.mem_singleton]
          constructor
          · rintro (h | rfl)
            · exact Or.inl h
            · exact Or.inr ⟨rfl, htv⟩
          · rintro (h | ⟨he, _⟩)
            · exact Or.inl h
            · injection he with he
              exact Or.inr he.symm
        · rw [if_neg htv]
          push_neg at htv
          constructor
          · exact Or.inl
          · rintro (h | ⟨he, hne⟩)
            · exact h
            · injection he with he
              exact absurd (by rw [← he]; exact htv) hne
    rw [foldl_mem_of_step _
      (fun name t0 => dget ctm (lowerStr name) = some t0 ∧ t0 ≠ []) hstep cs [] t]
    constructor
    · rintro (h | h)
      · exact absurd h (List.not_mem_nil t)
      · exact h
    · exact Or.inr

/-- C7: map_to_tickers is a pure case-insensitive lookup.  On a lexicon
with lowercase canonical keys and nonempty ticker values (the data-model
invariants of the shipped lexicon), the empty input yields the empty
output, the result is deduplicated, and a ticker is returned exactly when
one of the given company names looks it up case-insensitively, names with
no lexicon entry being silently skipped. -/
theorem map_to_tickers_pure_lookup :
    ∀ (cs : List Str) (ctm : List (Str × Str)),
      ctm.all (fun p => decide (p.2 ≠ [])) = true →
      ctm.all (fun p => decide (lowerStr p.1 = p.1)) = true →
      map_to_tickers [] ctm = [] ∧
      (map_to_tickers cs ctm).Nodup ∧
      (∀ t, t ∈ map_to_tickers cs ctm ↔ ∃ c, c ∈ cs ∧ lookupCI ctm c = some t) := by
  intro cs ctm hvals0 hkeys0
  have hvals : ∀ p, p ∈ ctm → p.2 ≠ [] :=
    fun p hp => of_decide_eq_true (List.all_eq_true.mp hvals0 p hp)
  have hkeys : ∀ p, p ∈ ctm → lowerStr p.1 = p.1 :=
    fun p hp => of_decide_eq_true (List.all_eq_true.mp hkeys0 p hp)
  refine ⟨rfl, ?_, ?_⟩
  · unfold map_to_tickers
    by_cases hcs : cs = []
    · rw [if_pos hcs]
      exact List.nodup_nil
    · rw [if_neg hcs]
      exact dedupList_nodup _
  · intro t
    rw [map_to_tickers_mem]
    constructor
    · rintro ⟨c, hc, hd, _⟩
      exact ⟨c, hc, by rw [← dget_eq_lookupCI ctm c hkeys]; exact hd⟩
    · rintro ⟨c, hc, hl⟩
      have hd : dget ctm (lowerStr c) = some t := by
        rw [dget_eq_lookupCI ctm c hkeys]
        exact hl
      exact ⟨c, hc, hd, dget_some_ne_nil ctm (lowerStr c) t hvals hd⟩

/-- Witness for C7 on the shipped lexicon: its invariants hold and the
mapper's output for the name Apple is duplicate-free. -/
theorem map_to_tickers_pure_lookup_witness :
    COMPANY_TICKER_MAP.all (fun p => decide (p.2 ≠ [])) = true ∧
    COMPANY_TICKER_MAP.all (fun p => decide (lowerStr p.1 = p.1)) = true ∧
    (map_to_tickers ["Apple".data] COMPANY_TICKER_MAP).Nodup :=
  ⟨by decide, by decide,
   (map_to_tickers_pure_lookup ["Apple".data] COMPANY_TICKER_MAP (by decide) (by decide)).2.1⟩

/-- Membership in a conditional set-add step. -/
theorem mem_if_wb_addIfNew (cond : Bool) (acc : List Str) (x c : Str) :
    c ∈ (if cond then addIfNew acc x else acc) ↔ c ∈ acc ∨ (cond = true ∧ x = c) := by
  by_cases hw : cond = true
  · rw [if_pos hw, mem_addIfNew]
    constructor
    · rintro (h | rfl)
      · exact Or.inl h
      · exact Or.inr ⟨hw, rfl⟩
    · rintro (h | ⟨_, rfl⟩)
      · exact Or.inl h
      · exact Or.inr rfl
  · rw [if_neg hw]
    constructor
    · exact Or.inl
    · rintro (h | ⟨hw2, _⟩)
      · exact h
      · exact absurd hw2 hw

/-- The amended extraction predicate rejects everything on the empty
query, whose lowering admits no word-boundary match. -/
theorem extractSpecAmended_nil (ctm : List (Str × Str)) (files : Option (List Str)) (c : Str) :
    extractSpecAmended [] ctm files c = false := by
  unfold extractSpecAmended
  cases files with
  | none => simp [lowerStr, wbSearch_nil]
  | some fs => simp [lowerStr, wbSearch_nil]

/-- C5 counterexample: on the shipped lexicon, where google and alphabet
share the ticker GOOGL, the query googl satisfies the claim's membership
condition for alphabet (its lowercased ticker matches at a word boundary),
yet extract_companies does not return alphabet, because the
ticker-to-company table keeps only the first company per ticker. -/
theorem extract_companies_ticker_claim_counterexample :
    claimExtractSpec "googl".data COMPANY_TICKER_MAP none "alphabet".data = true ∧
    "alphabet".data ∉ extract_companies "googl".data COMPANY_TICKER_MAP none :=
  ⟨by decide, by decide⟩

/-- C5 (amended): extract_companies lowercases the query and returns the
deduplicated set consisting of every lexicon company name that
word-boundary-matches the lowered query, the first lexicon owner of every
lowercased ticker that word-boundary-matches it, and the lowercased
before-first-dash segment of every corpus filename with a document
extension that word-boundary-matches it; in particular every query
containing a lexicon company name as a whole word, in any letter case,
yields that company name. -/
theorem extract_companies_membership :
    (∀ (q : Str) (ctm : List (Str × Str)) (files : Option (List Str)) (c : Str),
        c ∈ extract_companies q ctm files ↔ extractSpecAmended q ctm files c = true) ∧
    (∀ (q : Str) (ctm : List (Str × Str)) (files : Option (List Str)) (name t : Str),
        (name, t) ∈ ctm → wbSearch name (lowerStr q) = true →
        name ∈ extract_companies q ctm files) ∧
    "apple".data ∈ extract_companies "What about APPLE?".data COMPANY_TICKER_MAP none := by
  have main : ∀ (q : Str) (ctm : List (Str × Str)) (files : Option (List Str)) (c : Str),
      c ∈ extract_companies q ctm files ↔ extractSpecAmended q ctm files c = true := by
    intro q ctm files c
    by_cases hq : q = []
    · subst hq
      rw [extract_companies, if_pos rfl, extractSpecAmended_nil]
      constructor
      · intro h
        exact absurd h (List.not_mem_nil c)
      · intro h
        exact Bool.noConfusion h
    · have hstep1 : ∀ (acc : List Str) (p : Str × Str) (c0 : Str),
          c0 ∈ (if wbSearch p.1 (lowerStr q) then addIfNew acc p.1 else acc) ↔
            c0 ∈ acc ∨ (wbSearch p.1 (lowerStr q) = true ∧ p.1 = c0) :=
        fun acc p c0 => mem_if_wb_addIfNew (wbSearch p.1 (lowerStr q)) acc p.1 c0
      have hstep2 : ∀ (acc : List Str) (p : Str × Str) (c0 : Str),
          c0 ∈ (if wbSearch p.1 (lowerStr q) then addIfNew acc p.2 else acc) ↔
            c0 ∈ acc ∨ (wbSearch p.1 (lowerStr q) = true ∧ p.2 = c0) :=
        fun acc p c0 => mem_if_wb_addIfNew (wbSearch p.1 (lowerStr q)) acc p.2 c0
      have hstep3 : ∀ (acc : List Str) (fname : Str) (c0 : Str),
          c0 ∈ (if hasDocExt (lowerStr fname) then
                  if wbSearch (fileCompany fname) (lowerStr q) then
                    addIfNew acc (fileCompany fname)
                  else acc
                else acc) ↔
            c0 ∈ acc ∨ (hasDocExt (lowerStr fname) = true ∧
              wbSearch (fileCompany fname) (lowerStr q) = true ∧ fileCompany fname = c0) := by
        intro acc fname c0
        by_cases he : hasDocExt (lowerStr fname) = true
        · rw [if_pos he, mem_if_wb_addIfNew]
          constructor
          · rintro (h | ⟨hw, hx⟩)
            · exact Or.inl h
            · exact Or.inr ⟨he, hw, hx⟩
          · rintro (h | ⟨_, hw, hx⟩)
            · exact Or.inl h
            · exact Or.inr ⟨hw, hx⟩
        · rw [if_neg he]
          constructor
          · exact Or.inl
          · rintro (h | ⟨he2, _⟩)
            · exact h
            · exact absurd he2 he
      cases files with
      | none =>
        simp only [extract_companies, if_neg hq]
        rw [foldl_mem_of_step _ _ hstep2 (tickerToCompany ctm) _ c,
            foldl_mem_of_step _ _ hstep1 ctm [] c]
        simp only [extractSpecAmended, Bool.or_eq_true, List.any_eq_true, Bool.and_eq_true,
          decide_eq_true_eq]
        constructor
        · rintro ((h | ⟨p, hp, hw, he⟩) | ⟨p, hp, hw, he⟩)
          · exact absurd h (List.not_mem_nil c)
          · exact Or.inl (Or.inl ⟨p, hp, he, hw⟩)
          · exact Or.inl (Or.inr ⟨p, hp, he, hw⟩)
        · rintro ((⟨p, hp, he, hw⟩ | ⟨p, hp, he, hw⟩) | hfalse)
          · exact Or.inl (Or.inr ⟨p, hp, hw, he⟩)
          · exact Or.inr ⟨p, hp, hw, he⟩
          · exact Bool.noConfusion hfalse
      | some fs =>
        simp only [extract_companies, if_neg hq]
        rw [foldl_mem_of_step _ _ hstep3 fs _ c,
            foldl_mem_of_step _ _ hstep2 (tickerToCompany ctm) _ c,
            foldl_mem_of_step _ _ hstep1 ctm [] c]
        simp only [extractSpecAmended, Bool.or_eq_true, List.any_eq_true, Bool.and_eq_true,
          decide_eq_true_eq]
        constructor
        · rintro (((h | ⟨p, hp, hw, he⟩) | ⟨p, hp, hw, he⟩) | ⟨f, hf, hd, hw, he⟩)
          · exact absurd h (List.not_mem_nil c)
          · exact Or.inl (Or.inl ⟨p, hp, he, hw⟩)
          · exact Or.inl (Or.inr ⟨p, hp, he, hw⟩)
          · exact Or.inr ⟨f, hf, ⟨hd, he⟩, hw⟩
        · rintro ((⟨p, hp, he, hw⟩ | ⟨p, hp, he, hw⟩) | ⟨f, hf, ⟨hd, he⟩, hw⟩)
          · exact Or.inl (Or.inl (Or.inr ⟨p, hp, hw, he⟩))
          · exact Or.inl (Or.inr ⟨p, hp, hw, he⟩)
          · exact Or.inr ⟨f, hf, hd, hw, he⟩
  refine ⟨main, ?_, by decide⟩
  intro q ctm files name t hmem hwb
  rw [main q ctm files name]
  simp only [extractSpecAmended]
  have h1 : ctm.any (fun p => decide (p.1 = name) && wbSearch p.1 (lowerStr q)) = true := by
    rw [List.any_eq_true]
    exact ⟨(name, t), hmem, by rw [Bool.and_eq_true, decide_eq_true_eq]; exact ⟨rfl, hwb⟩⟩
  rw [h1]
  rfl

/-- Witness for C5 on the worked example: apple with its ticker is a
lexicon entry, the name word-boundary-matches the lowered query, and the
extraction returns it. -/
theorem extract_companies_membership_witness :
    ("apple".data, "AAPL".data) ∈ COMPANY_TICKER_MAP ∧
    wbSearch "apple".data (lowerStr "What about APPLE?".data) = true ∧
    "apple".data ∈ extract_companies "What about APPLE?".data COMPANY_TICKER_MAP none :=
  ⟨by decide, by decide,
   extract_companies_membership.2.1 "What about APPLE?".data COMPANY_TICKER_MAP none
     "apple".data "AAPL".data (by decide) (by decide)⟩

/-- Keys of the aggregated response entries are the derived agent keys. -/
theorem mapped_keys (names : List Str) (results : List AgentResult)
    (hlen : results.length = names.length) :
    ((names.zip results).map (fun pr => (keyFor pr.1, entryOf pr.2))).map Prod.fst =
      names.map keyFor := by
  rw [List.map_map]
  have hcomp : (Prod.fst ∘ fun pr : Str × AgentResult => (keyFor pr.1, entryOf pr.2)) =
      (keyFor ∘ Prod.fst) := rfl
  rw [hcomp, ← List.map_map, List.map_fst_zip]
  exact le_of_eq hlen.symm

/-- With distinct derived keys the aggregated data map is exactly the
per-agent association list, in selection order. -/
theorem routeAggregate_data_eq (names : List Str) (results : List AgentResult)
    (hlen : results.length = names.length)
    (hnd : (names.map keyFor).Nodup)
    (hne : names ≠ []) :
    (routeAggregate names results).data =
      (names.zip results).map (fun pr => (keyFor pr.1, entryOf pr.2)) := by
  have hkeys := mapped_keys names results hlen
  have hfold : (names.zip results).foldl
      (fun acc pr => dictInsert acc (keyFor pr.1) (entryOf pr.2)) [] =
      (names.zip results).map (fun pr => (keyFor pr.1, entryOf pr.2)) := by
    have hmap := List.foldl_map (fun pr : Str × AgentResult => (keyFor pr.1, entryOf pr.2))
      (fun (d : List (Str × RVal)) kv => dictInsert d kv.1 kv.2) (names.zip results)
      ([] : List (Str × RVal))
    rw [foldl_dictInsert_append _ [] (by rw [List.nil_append, hkeys]; exact hnd),
      List.nil_append] at hmap
    exact hmap.symm
  have hz : ((names.zip results).map (fun pr => (keyFor pr.1, entryOf pr.2))) ≠ [] := by
    intro hcon
    have hlen2 := congrArg List.length hcon
    rw [List.length_map, List.length_zip, hlen, min_self, List.length_nil] at hlen2
    exact hne (List.length_eq_zero.mp hlen2)
  simp only [routeAggregate]
  rw [hfold, if_neg hz]

/-- Any exception-shaped or silent result lowers the status. -/
theorem routeAggregate_status_partial (names : List Str) (results : List AgentResult)
    (h : (names.zip results).any (fun pr => isFailure pr.2) = true) :
    (routeAggregate names results).status = "partial_failure".data := by
  simp only [routeAggregate]
  rw [if_pos h]

/-- Each agent's recorded entry is determined by its own result alone. -/
theorem routeAggregate_entries (names : List Str) (results : List AgentResult)
    (hlen : results.length = names.length) (hnd : (names.map keyFor).Nodup)
    (hne : names ≠ []) :
    ∀ (j : Nat) (nj : Str) (rj : AgentResult),
      names[j]? = some nj → results[j]? = some rj →
      dlookup (routeAggregate names results).data (keyFor nj) = some (entryOf rj) := by
  intro j nj rj hj1 hj2
  rw [routeAggregate_data_eq names results hlen hnd hne]
  have hzj := zip_getElem_some names results j nj rj hj1 hj2
  have hm : ((names.zip results).map (fun pr => (keyFor pr.1, entryOf pr.2)))[j]? =
      some (keyFor nj, entryOf rj) := by
    rw [List.getElem?_map, hzj]
    rfl
  exact dlookup_of_nodup _ (by rw [mapped_keys names results hlen]; exact hnd) j
    (keyFor nj, entryOf rj) hm

/-- C3: the dispatcher isolates agent exceptions.  Whenever the i-th
selected agent's gathered result is an exception, the aggregated envelope
still holds an entry for every selected agent under its derived key, the
raising agent's entry is the error object of its message, every other
agent's entry is exactly the entry of its own result (unaffected by the
failure), the overall status is partial_failure, and aggregation is a
total function, never re-raising. -/
theorem route_isolates_agent_exceptions :
    ∀ (names : List Str) (results : List AgentResult),
      results.length = names.length →
      (names.map keyFor).Nodup →
      ∀ (i : Nat) (nm : Str) (msg : Str),
        names[i]? = some nm → results[i]? = some (AgentResult.exn msg) →
        (∀ (j : Nat) (nj : Str) (rj : AgentResult),
            names[j]? = some nj → results[j]? = some rj →
            dlookup (routeAggregate names results).data (keyFor nj) = some (entryOf rj)) ∧
        dlookup (routeAggregate names results).data (keyFor nm) = some (RVal.errObj msg) ∧
        (routeAggregate names results).status = "partial_failure".data := by
  intro names results hlen hnd i nm msg hnm hex
  have hne : names ≠ [] := by
    intro hcon
    subst hcon
    rw [List.getElem?_nil] at hnm
    exact Option.noConfusion hnm
  have hall := routeAggregate_entries names results hlen hnd hne
  refine ⟨hall, hall i nm (AgentResult.exn msg) hnm hex, ?_⟩
  apply routeAggregate_status_partial
  rw [List.any_eq_true]
  exact ⟨(nm, AgentResult.exn msg),
    mem_of_getElem_some _ i _ (zip_getElem_some names results i nm (AgentResult.exn msg) hnm hex),
    rfl⟩

/-- Witness for C3 on a concrete fan-out: with FinanceAgent succeeding and
YahooAgent raising boom, the yahoo entry is the error object and the
status is partial_failure. -/
theorem route_isolates_agent_exceptions_witness :
    dlookup (routeAggregate [financeAgentName, yahooAgentName]
        [AgentResult.withData 7 [], AgentResult.exn "boom".data]).data (keyFor yahooAgentName) =
      some (RVal.errObj "boom".data) ∧
    (routeAggregate [financeAgentName, yahooAgentName]
        [AgentResult.withData 7 [], AgentResult.exn "boom".data]).status =
      "partial_failure".data :=
  ⟨(route_isolates_agent_exceptions [financeAgentName, yahooAgentName]
      [AgentResult.withData 7 [], AgentResult.exn "boom".data] (by decide) (by decide) 1
      yahooAgentName "boom".data (by decide) (by decide)).2.1,
   (route_isolates_agent_exceptions [financeAgentName, yahooAgentName]
      [AgentResult.withData 7 [], AgentResult.exn "boom".data] (by decide) (by decide) 1
      yahooAgentName "boom".data (by decide) (by decide)).2.2⟩

/-- C9: a None result is recorded as the fixed no-response error.  When
the i-th selected agent's gathered result is None, its entry is the error
object with message Agent returned no response, the status is
partial_failure, and every sibling entry is exactly the entry of its own
result. -/
theorem route_records_none_as_error :
    ∀ (names : List Str) (results : List AgentResult),
      results.length = names.length →
      (names.map keyFor).Nodup →
      ∀ (i : Nat) (nm : Str),
        names[i]? = some nm → results[i]? = some AgentResult.noResponse →
        (∀ (j : Nat) (nj : Str) (rj : AgentResult),
            names[j]? = some nj → results[j]? = some rj →
            dlookup (routeAggregate names results).data (keyFor nj) = some (entryOf rj)) ∧
        dlookup (routeAggregate names results).data (keyFor nm) =
          some (RVal.errObj "Agent returned no response".data) ∧
        (routeAggregate names results).status = "partial_failure".data := by
  intro names results hlen hnd i nm hnm hex
  have hne : names ≠ [] := by
    intro hcon
    subst hcon
    rw [List.getElem?_nil] at hnm
    exact Option.noConfusion hnm
  have hall := routeAggregate_entries names results hlen hnd hne
  refine ⟨hall, hall i nm AgentResult.noResponse hnm hex, ?_⟩
  apply routeAggregate_status_partial
  rw [List.any_eq_true]
  exact ⟨(nm, AgentResult.noResponse),
    mem_of_getElem_some _ i _ (zip_getElem_some names results i nm AgentResult.noResponse hnm hex),
    rfl⟩

/-- Witness for C9 on a concrete fan-out: with RedditAgent returning None
and FinanceAgent succeeding, the reddit entry is the no-response error and
the status is partial_failure. -/
theorem route_records_none_as_error_witness :
    dlookup (routeAggregate [redditAgentName, financeAgentName]
        [AgentResult.noResponse, AgentResult.dictRes 3]).data (keyFor redditAgentName) =
      some (RVal.errObj "Agent returned no response".data) ∧
    (routeAggregate [redditAgentName, financeAgentName]
        [AgentResult.noResponse, AgentResult.dictRes 3]).status = "partial_failure".data :=
  ⟨(route_records_none_as_error [redditAgentName, financeAgentName]
      [AgentResult.noResponse, AgentResult.dictRes 3] (by decide) (by decide) 0
      redditAgentName (by decide) (by decide)).2.1,
   (route_records_none_as_error [redditAgentName, financeAgentName]
      [AgentResult.noResponse, AgentResult.dictRes 3] (by decide) (by decide) 0
      redditAgentName (by decide) (by decide)).2.2⟩

end FinanceAgents
